import Mathlib

/-!
Verification of the segmented parallel transcription pipeline
(`gemini_transcribe.py`, class `GeminiTranscriber`).

The Python code is shallowly embedded: floating-point seconds become
rationals, Python strings become Lean strings (with Python `str.strip`
semantics modelled by `pyStrip`), the filesystem becomes an explicit list
of entries, and the fallible external collaborators (ffmpeg extraction,
the remote transcription call, the artifact write) become explicit
parameters recording their outcomes.
-/

namespace GeminiTranscribe

/-- Python whitespace set used by `str.strip()` with no arguments:
space, tab, newline, carriage return, vertical tab, form feed. -/
def isPySpace (c : Char) : Bool :=
  c = ' ' || c = '\t' || c = '\n' || c = '\r' || c = '\x0b' || c = '\x0c'

/-- Model of Python `str.strip()`: drop leading and trailing whitespace. -/
def pyStrip (s : String) : String :=
  String.mk (((s.data.dropWhile isPySpace).reverse.dropWhile isPySpace).reverse)

/-- Decimal digit characters of a natural number, most significant first;
structurally recursive on a fuel bound so that it evaluates inside the
kernel.  `fuel = n + 1` always suffices since the argument shrinks by a
factor of ten each step. -/
def decimalDigitsAux : Nat → Nat → List Char
  | 0, _ => []
  | fuel + 1, n =>
    if n < 10 then [Nat.digitChar n]
    else decimalDigitsAux fuel (n / 10) ++ [Nat.digitChar (n % 10)]

/-- Decimal digit characters of a natural number, most significant first. -/
def decimalDigits (n : Nat) : List Char := decimalDigitsAux (n + 1) n

/-- Decimal rendering of a natural number. -/
def natRender (n : Nat) : String :=
  String.mk (decimalDigits n)

/-- Decimal rendering of an integer (used for `%d`-style formatting). -/
def intRender (i : ℤ) : String :=
  if i < 0 then "-" ++ natRender i.natAbs else natRender i.toNat

/-- Left-pad a string with zeros to the given width. -/
def padZeros (w : Nat) (s : String) : String :=
  if s.length < w then String.mk (List.replicate (w - s.length) '0') ++ s else s

/-- Model of the Python format `f"{i:03d}"` (zero-padded to width 3,
the sign counting toward the width). -/
def fmt03d (i : ℤ) : String :=
  if i < 0 then "-" ++ padZeros 2 (natRender i.natAbs) else padZeros 3 (natRender i.toNat)

/-- Model of the Python float format `"{x:.0f}"`: round to the nearest
integer, ties to even (the rounding used by Python for `format`).  The
fractional part `q - ⌊q⌋ = (q.num - ⌊q⌋ * q.den) / q.den` is compared
with `1 / 2` by the equivalent integer comparison of
`2 * (q.num - ⌊q⌋ * q.den)` with `q.den`. -/
def fmt0f (q : ℚ) : ℤ :=
  if (q.den : ℤ) < 2 * (q.num - ⌊q⌋ * q.den) then ⌊q⌋ + 1
  else if 2 * (q.num - ⌊q⌋ * q.den) < (q.den : ℤ) then ⌊q⌋
  else if ⌊q⌋ % 2 = 0 then ⌊q⌋ else ⌊q⌋ + 1

/-! ### Configuration constants of `GeminiTranscriber.__init__` (lines 62-88) -/

/-- Source line 73: the supported audio extensions. -/
def audio_extensions : List String :=
  [".mp3", ".wav", ".m4a", ".flac", ".aac", ".ogg", ".webm", ".m4v"]

/-- Source line 77: `30 * 60` seconds, the segmentation threshold. -/
def max_segment_duration : ℚ := 30 * 60

/-- Source line 78: `self.max_workers = 5`.  This attribute is assigned in
`__init__` but is never read anywhere else in the source file. -/
def max_workers : Nat := 5

/-- Source line 86: `self.max_retries = 3`. -/
def max_retries : Nat := 3

/-- Source line 87: `self.retry_delay = 2` (seconds). -/
def retry_delay : Nat := 2

/-! ### Segment planner: `split_audio_file` (lines 183-213) and
`_create_segment_file` (lines 215-259) -/

/-- The path of one planned segment: either the original audio file itself
(no extraction), or an extracted sub-file carrying a sequence index. -/
inductive SegPath where
  | original : SegPath
  | segment (idx : ℤ) : SegPath
deriving DecidableEq, Repr

/-- One entry of the segment plan: `(文件路徑, 開始時間, 結束時間)`,
the tuple `(path, start, end)` returned by `split_audio_file`. -/
structure Seg where
  path : SegPath
  start : ℚ
  stop : ℚ
deriving DecidableEq, Repr

/-- Source line 231: `segment_index = int(start_time // self.max_segment_duration) + 1`.
Python `//` on floats is floor division. -/
def createSegmentIndex (t s : ℚ) : ℤ := ⌊s / t⌋ + 1

/-- The `while current_time < duration` loop of `split_audio_file`
(lines 203-210).  `ok current e` records whether the ffmpeg extraction
for the stride `[current, e]` succeeds (`_create_segment_file` returning
a path rather than `None`); a failed stride is skipped, exactly as in the
source.  The loop only terminates when the threshold `t` is positive
(in the source `t = 1800`); for nonpositive `t` the model returns `[]`. -/
def splitLoop (ok : ℚ → ℚ → Bool) (t d current : ℚ) : List Seg :=
  if h : current < d ∧ 0 < t then
    if ok current (min (current + t) d) then
      ⟨SegPath.segment (createSegmentIndex t current), current, min (current + t) d⟩ ::
        splitLoop ok t d (min (current + t) d)
    else splitLoop ok t d (min (current + t) d)
  else []
termination_by (⌈(d - current) / t⌉).toNat
decreasing_by
  · obtain ⟨hlt, ht⟩ := h
    have ht' : t ≠ 0 := ne_of_gt ht
    have h1 : (0 : ℚ) < (d - current) / t := div_pos (by linarith) ht
    have h2 : 1 ≤ ⌈(d - current) / t⌉ := Int.ceil_pos.mpr h1
    have h3 : ⌈(d - min (current + t) d) / t⌉ ≤ ⌈(d - current) / t⌉ - 1 := by
      rcases le_total (current + t) d with hc | hc
      · rw [min_eq_left hc]
        have he : (d - (current + t)) / t = (d - current) / t - 1 := by
          field_simp
          ring
        rw [he, Int.ceil_sub_one]
      · rw [min_eq_right hc]
        simp only [sub_self, zero_div, Int.ceil_zero]
        omega
    omega
  · obtain ⟨hlt, ht⟩ := h
    have ht' : t ≠ 0 := ne_of_gt ht
    have h1 : (0 : ℚ) < (d - current) / t := div_pos (by linarith) ht
    have h2 : 1 ≤ ⌈(d - current) / t⌉ := Int.ceil_pos.mpr h1
    have h3 : ⌈(d - min (current + t) d) / t⌉ ≤ ⌈(d - current) / t⌉ - 1 := by
      rcases le_total (current + t) d with hc | hc
      · rw [min_eq_left hc]
        have he : (d - (current + t)) / t = (d - current) / t - 1 := by
          field_simp
          ring
        rw [he, Int.ceil_sub_one]
      · rw [min_eq_right hc]
        simp only [sub_self, zero_div, Int.ceil_zero]
        omega
    omega

/-- `GeminiTranscriber.split_audio_file` (lines 183-213): probe the duration
`d`; if `d ≤ t` return the single segment `(audio_path, 0.0, duration)`
with no extraction, else run the stride loop. -/
def split_audio_file (ok : ℚ → ℚ → Bool) (t d : ℚ) : List Seg :=
  if d ≤ t then [⟨SegPath.original, 0, d⟩] else splitLoop ok t d 0

/-- Extraction oracle under which every `_create_segment_file` call succeeds. -/
def allOk : ℚ → ℚ → Bool := fun _ _ => true

/-! ### Transcription results and the result merger
(`transcribe_segment_async` lines 283-358, `transcribe_audio_parallel`
lines 426-455, `merge_transcription_results` lines 457-496) -/

/-- The dictionary built by `transcribe_segment_async` (lines 344-350),
restricted to the fields the merger reads: `text`, `start_time`,
`end_time`.  The `segment_path` and wall-clock `processing_time` fields
are never read by the merger and are omitted. -/
structure TResult where
  text : String
  start : ℚ
  stop : ℚ
deriving DecidableEq, Repr

/-- Source line 481: the block marker
`f"\n\n--- 區塊 {i+1} ({start_time:.0f}s - {end_time:.0f}s) ---\n"`. -/
def blockHeader (i : Nat) (s e : ℚ) : String :=
  "\n\n--- 區塊 " ++ natRender (i + 1) ++ " (" ++ intRender (fmt0f s) ++ "s - "
    ++ intRender (fmt0f e) ++ "s) ---\n"

/-- The merged dictionary returned by `merge_transcription_results`.
For an empty input the source returns a dictionary that lacks the
`total_segments` key, modelled here by `none`. -/
structure Merged where
  text : String
  segments : List (ℚ × ℚ × String)
  total_segments : Option Nat
deriving DecidableEq, Repr

/-- One iteration of the `for i, result in enumerate(results)` loop of
`merge_transcription_results` (lines 474-489): `n` is `len(results)`;
a result whose stripped text is empty contributes nothing; otherwise the
block marker is appended whenever `n > 1`, followed by the stripped text,
and the segment entry is appended to the merged segment list. -/
def mergeStep (n : Nat) (acc : String × List (ℚ × ℚ × String)) (ir : Nat × TResult) :
    String × List (ℚ × ℚ × String) :=
  if pyStrip ir.2.text = "" then acc
  else
    ((if 1 < n then acc.1 ++ blockHeader ir.1 ir.2.start ir.2.stop else acc.1)
        ++ pyStrip ir.2.text,
      acc.2 ++ [(ir.2.start, ir.2.stop, pyStrip ir.2.text)])

/-- `GeminiTranscriber.merge_transcription_results` (lines 457-496). -/
def merge_transcription_results (results : List TResult) : Merged :=
  if results.isEmpty then ⟨"", [], none⟩
  else
    let p := results.enum.foldl (mergeStep results.length) ("", [])
    ⟨pyStrip p.1, p.2, some results.length⟩

/-- The sort key of source line 452: `results.sort(key=lambda x: x['start_time'])`. -/
def resultLE (a b : TResult) : Prop := a.start ≤ b.start

instance : DecidableRel resultLE := fun a b => inferInstanceAs (Decidable (a.start ≤ b.start))

instance : IsTotal TResult resultLE := ⟨fun a b => le_total a.start b.start⟩

instance : IsTrans TResult resultLE := ⟨fun _ _ _ hab hbc => le_trans hab hbc⟩

/-- Source line 452: the collected results are sorted ascending by
`start_time` before being returned by `transcribe_audio_parallel`.
Python `list.sort` is a stable ascending sort by the key; a stable
insertion sort by the same key models it. -/
def sortResultsByStart (rs : List TResult) : List TResult :=
  List.insertionSort resultLE rs

/-- The merged output of one segment batch as produced by the pipeline:
`transcribe_audio_parallel` sorts the collected results by start offset
(line 452) and `process_audio_file_async` feeds them to
`merge_transcription_results` (line 679). -/
def mergeOfBatch (rs : List TResult) : Merged :=
  merge_transcription_results (sortResultsByStart rs)

/-! ### Retry wrapper: `_call_gemini_api_with_retry` (lines 360-401) -/

/-- The outcome of one streamed API call attempt: either an exception
raised while issuing or consuming the call, or the accumulated chunk
text (possibly empty). -/
inductive ApiOutcome where
  | exc : ApiOutcome
  | ok (text : String) : ApiOutcome
deriving DecidableEq, Repr

/-- Observable trace of the retry wrapper: the returned value, the number
of attempts issued, and the list of `time.sleep` durations performed, in
order. -/
structure RetryTrace where
  result : Option String
  attempts : Nat
  sleeps : List Nat
deriving DecidableEq, Repr

/-- The `for attempt in range(self.max_retries)` loop of
`_call_gemini_api_with_retry` (lines 373-401), run from attempt number
`attempt` with `fuel` iterations remaining.  A nonempty stripped response
returns immediately; an empty response just loops (the source sleeps only
in the `except` branch); an exception sleeps `retry_delay * (attempt + 1)`
seconds when further attempts remain.  After the loop, `None` is returned. -/
def retryFrom (outcomes : Nat → ApiOutcome) (maxR delay : Nat) :
    Nat → Nat → RetryTrace
  | _, 0 => ⟨none, 0, []⟩
  | attempt, fuel + 1 =>
    match outcomes attempt with
    | ApiOutcome.ok s =>
      if pyStrip s = "" then
        let r := retryFrom outcomes maxR delay (attempt + 1) fuel
        ⟨r.result, r.attempts + 1, r.sleeps⟩
      else ⟨some (pyStrip s), 1, []⟩
    | ApiOutcome.exc =>
      let r := retryFrom outcomes maxR delay (attempt + 1) fuel
      if attempt < maxR - 1 then
        ⟨r.result, r.attempts + 1, delay * (attempt + 1) :: r.sleeps⟩
      else ⟨r.result, r.attempts + 1, r.sleeps⟩

/-- `GeminiTranscriber._call_gemini_api_with_retry` (lines 360-401),
as a trace over the per-attempt outcomes of the remote call. -/
def call_gemini_api_with_retry (outcomes : Nat → ApiOutcome) (maxR delay : Nat) :
    RetryTrace :=
  retryFrom outcomes maxR delay 0 maxR

/-! ### Paths and the filesystem
(`find_audio_files` lines 105-121, `get_transcript_path` lines 123-133,
`needs_transcription` lines 135-146, `_create_segment_file` lines 227-234,
`cleanup_segments` lines 548-563) -/

/-- An absolute path, split into the containing directory and the final
component (`pathlib.Path.name`). -/
structure FsPath where
  dir : String
  name : String
deriving DecidableEq, Repr

/-- `pathlib.Path.suffix` on the final component: the substring from the
last dot, provided that dot is neither the first nor the last character
(`name.rfind` semantics). -/
def suffixChars (cs : List Char) : List Char :=
  let pre := cs.reverse.takeWhile (fun c => c ≠ '.')
  if pre.length = cs.length then []
  else if pre.length = 0 then []
  else if pre.length = cs.length - 1 then []
  else '.' :: pre.reverse

/-- `pathlib.Path.suffix` as a string operation. -/
def pathSuffix (s : String) : String := String.mk (suffixChars s.data)

/-- `pathlib.Path.stem`: the final component with its suffix removed. -/
def pathStem (s : String) : String :=
  String.mk (s.data.take (s.data.length - (suffixChars s.data).length))

/-- Model of Python `str.lower()` (the extensions involved are ASCII). -/
def strLower (s : String) : String := String.mk (s.data.map Char.toLower)

/-- Python `name.startswith('.')` (source line 118, the hidden-file filter). -/
def isHiddenName (s : String) : Bool :=
  match s.data with
  | c :: _ => c = '.'
  | [] => false

/-- One filesystem entry: a path plus whether it is a regular file
(`Path.is_file`). -/
structure FsEntry where
  path : FsPath
  isFile : Bool
deriving DecidableEq, Repr

/-- The filesystem under the audio root, as the list of entries the
recursive glob `self.audio_dir.rglob('*')` would enumerate. -/
abbrev FS : Type := List FsEntry

/-- `GeminiTranscriber.find_audio_files` (lines 105-121): keep every
regular file whose lowercased suffix is a supported audio extension and
whose name does not begin with a dot. -/
def find_audio_files (tree : FS) : List FsPath :=
  (tree.filter fun e =>
    e.isFile && decide (strLower (pathSuffix e.path.name) ∈ audio_extensions)
      && !(isHiddenName e.path.name)).map fun e => e.path

/-- `Path.exists()` over the modelled filesystem. -/
def fsExists (fs : FS) (p : FsPath) : Bool := fs.any fun e => e.path == p

/-- Creating a regular file (an ffmpeg extraction output or the transcript
write). -/
def fsAddFile (fs : FS) (p : FsPath) : FS := ⟨p, true⟩ :: fs

/-- `Path.unlink()`: remove the entry at a path. -/
def fsRemove (fs : FS) (p : FsPath) : FS := fs.filter fun e => e.path != p

/-- `GeminiTranscriber.get_transcript_path` (line 133):
`audio_path.with_suffix('.txt')`. -/
def get_transcript_path (p : FsPath) : FsPath :=
  ⟨p.dir, pathStem p.name ++ ".txt"⟩

/-- `GeminiTranscriber.needs_transcription` (line 146): true iff the
derived transcript path does not exist. -/
def needs_transcription (fs : FS) (p : FsPath) : Bool :=
  !(fsExists fs (get_transcript_path p))

/-- The sub-file path generated by `_create_segment_file` (lines 228-234):
`audio_path.parent / f"{segment_index:03d}{suffix}"`.  The computed `stem`
of line 229 is never used, so the name carries no trace of the stem of
the source. -/
def segFile (audio : FsPath) : SegPath → FsPath
  | SegPath.original => audio
  | SegPath.segment i => ⟨audio.dir, fmt03d i ++ pathSuffix audio.name⟩

/-- The extractor-produced temporary sub-files of one planned batch
(the planned segments whose path is not the original file). -/
def subFilesOf (audio : FsPath) (t d : ℚ) : List FsPath :=
  (split_audio_file allOk t d).filterMap fun s =>
    match s.path with
    | SegPath.original => none
    | SegPath.segment i => some (segFile audio (SegPath.segment i))

/-- `GeminiTranscriber.cleanup_segments` (lines 548-563): delete each
segment path that is distinct from the original and exists. -/
def cleanup_segments (fs : FS) (files : List FsPath) (orig : FsPath) : FS :=
  files.foldl (fun acc q => if q ≠ orig ∧ fsExists acc q = true then fsRemove acc q else acc) fs

/-- `GeminiTranscriber.process_audio_file_async` (lines 647-695), with the
external collaborators explicit: `outcome s` is the final result of the
worker for the segment starting at `s` (`none` when every retry fails),
and `writeOk` records whether the `save_transcript` write succeeds.  The
returned pair is the reported success flag and the filesystem afterwards.
Extraction effects (the sub-files ffmpeg creates during
`split_audio_file`) are applied before the transcription phase, exactly
as in the source control flow. -/
def process_audio_file_async (t : ℚ) (outcome : ℚ → Option String) (writeOk : Bool)
    (fs : FS) (audio : FsPath) (d : ℚ) : Bool × FS :=
  if needs_transcription fs audio = false then (true, fs)
  else
    let segs := split_audio_file allOk t d
    let fs1 := (subFilesOf audio t d).foldl fsAddFile fs
    if segs.isEmpty then (false, fs1)
    else
      let results := sortResultsByStart (segs.filterMap fun s =>
        (outcome s.start).map fun txt => TResult.mk txt s.start s.stop)
      if results.isEmpty then (false, fs1)
      else if writeOk then
        (true, cleanup_segments (fsAddFile fs1 (get_transcript_path audio))
          (segs.map fun s => segFile audio s.path) audio)
      else (false, fs1)

/-! ### Cooperative scheduling of the segment batch
(`transcribe_audio_parallel` lines 426-455) -/

/-- The number of await-separated execution chunks in one
`transcribe_segment_async` coroutine (lines 283-358): the body contains
no `await` expression at all — the encoding, the client construction and
the streamed remote call are all ordinary blocking calls — so the whole
coroutine is a single atomic chunk. -/
def transcribeSegmentChunks : Nat := 1

/-- One step of the cooperative event loop running a batch of coroutines.
A state is `(pending, suspended)`: the chunk counts of tasks not yet
started and of tasks suspended at an await.  The loop may start any
pending task or resume any suspended one; the chosen task then runs
without interruption until its next await or its end.  The middle index
of the relation is the number of tasks in flight (started and not yet
finished) while the chosen chunk runs. -/
inductive SchedStep : List Nat × List Nat → Nat → List Nat × List Nat → Prop where
  | start (pend susp : List Nat) (i : Fin pend.length) :
      SchedStep (pend, susp) (susp.length + 1)
        (pend.eraseIdx i, if pend.get i ≤ 1 then susp else (pend.get i - 1) :: susp)
  | resume (pend susp : List Nat) (i : Fin susp.length) :
      SchedStep (pend, susp) susp.length
        (pend, if susp.get i ≤ 1 then susp.eraseIdx i else susp.set i (susp.get i - 1))

/-- Reachability of the event loop. -/
def SchedReaches : List Nat × List Nat → List Nat × List Nat → Prop :=
  Relation.ReflTransGen (fun a b => ∃ k, SchedStep a k b)

/-- The initial scheduler state of one batch of `n` segment coroutines. -/
def batchInit (n : Nat) : List Nat × List Nat :=
  (List.replicate n transcribeSegmentChunks, [])

/-! ## Lemmas about the segment planner -/

theorem splitLoop_eq_nil (ok : ℚ → ℚ → Bool) (t d current : ℚ)
    (h : ¬(current < d ∧ 0 < t)) : splitLoop ok t d current = [] := by
  rw [splitLoop.eq_def, dif_neg h]

theorem splitLoop_cons (ok : ℚ → ℚ → Bool) (t d current : ℚ) (h : current < d)
    (ht : 0 < t) (hok : ok current (min (current + t) d) = true) :
    splitLoop ok t d current =
      ⟨SegPath.segment (createSegmentIndex t current), current, min (current + t) d⟩ ::
        splitLoop ok t d (min (current + t) d) := by
  rw [splitLoop.eq_def, dif_pos ⟨h, ht⟩, if_pos hok]

theorem splitLoop_mem (ok : ℚ → ℚ → Bool) (t d : ℚ) (ht : 0 < t) :
    ∀ current, ∀ s ∈ splitLoop ok t d current,
      current ≤ s.start ∧ s.start < d ∧ s.stop = min (s.start + t) d ∧
        s.path = SegPath.segment (⌊s.start / t⌋ + 1) := by
  intro current
  induction current using splitLoop.induct ok t d with
  | case1 x hx hok ih =>
      rw [splitLoop.eq_def, dif_pos hx, if_pos hok]
      intro s hs
      rcases List.mem_cons.mp hs with rfl | hs
      · exact ⟨le_refl _, hx.1, rfl, rfl⟩
      · have hmem := ih s hs
        exact ⟨le_trans (le_min (by linarith [hx.2]) (le_of_lt hx.1)) hmem.1, hmem.2⟩
  | case2 x hx hok ih =>
      rw [splitLoop.eq_def, dif_pos hx, if_neg hok]
      intro s hs
      have hmem := ih s hs
      exact ⟨le_trans (le_min (by linarith [hx.2]) (le_of_lt hx.1)) hmem.1, hmem.2⟩
  | case3 x hx =>
      rw [splitLoop_eq_nil ok t d x hx]
      intro s hs
      cases hs

theorem splitLoop_chain (t d : ℚ) (ht : 0 < t) :
    ∀ current, List.Chain' (fun a b : Seg => a.stop = b.start) (splitLoop allOk t d current) := by
  intro current
  induction current using splitLoop.induct allOk t d with
  | case1 x hx hok ih =>
      rw [splitLoop.eq_def, dif_pos hx, if_pos hok]
      rw [List.chain'_cons']
      refine ⟨?_, ih⟩
      intro y hy
      by_cases he : min (x + t) d < d
      · rw [splitLoop_cons allOk t d _ he hx.2 rfl] at hy
        simp only [List.head?_cons, Option.mem_def, Option.some.injEq] at hy
        subst hy
        rfl
      · rw [splitLoop_eq_nil allOk t d _ (by intro hc; exact he hc.1)] at hy
        simp at hy
  | case2 x hx hok ih =>
      exact absurd rfl hok
  | case3 x hx =>
      rw [splitLoop_eq_nil allOk t d x hx]
      exact List.chain'_nil

theorem splitLoop_length (t d : ℚ) (ht : 0 < t) :
    ∀ current, current < d →
      (splitLoop allOk t d current).length = (⌈(d - current) / t⌉).toNat := by
  intro current
  induction current using splitLoop.induct allOk t d with
  | case1 x hx hok ih =>
      intro _
      rw [splitLoop_cons allOk t d x hx.1 hx.2 rfl, List.length_cons]
      by_cases he : min (x + t) d < d
      · have hxt : x + t < d := by
          rcases le_total (x + t) d with hc | hc
          · rwa [min_eq_left hc] at he
          · rw [min_eq_right hc] at he; exact absurd he (lt_irrefl d)
        have hmin : min (x + t) d = x + t := min_eq_left (le_of_lt hxt)
        rw [ih he]
        have he1 : (d - (x + t)) / t = (d - x) / t - 1 := by
          field_simp
          ring
        have hpos : (0 : ℚ) < (d - (x + t)) / t := div_pos (by linarith) hx.2
        have h1 : 1 ≤ ⌈(d - (x + t)) / t⌉ := Int.ceil_pos.mpr hpos
        have h2 : ⌈(d - (x + t)) / t⌉ = ⌈(d - x) / t⌉ - 1 := by
          rw [he1, Int.ceil_sub_one]
        rw [hmin, h2]
        omega
      · have hnil : splitLoop allOk t d (min (x + t) d) = [] :=
          splitLoop_eq_nil allOk t d _ (by intro hc; exact he hc.1)
        rw [hnil]
        have hd2 : d ≤ x + t := by
          by_contra hcon
          push_neg at hcon
          exact he (by rw [min_eq_left (le_of_lt hcon)]; exact hcon)
        have hceil : ⌈(d - x) / t⌉ = 1 := by
          rw [Int.ceil_eq_iff]
          constructor
          · push_cast
            have hpos : (0 : ℚ) < (d - x) / t := div_pos (by linarith [hx.1]) hx.2
            linarith
          · push_cast
            rw [div_le_one hx.2]
            linarith
        rw [hceil]
        rfl
  | case2 x hx hok ih =>
      exact absurd rfl hok
  | case3 x hx =>
      intro hxd
      exact absurd ⟨hxd, ht⟩ hx

theorem splitLoop_getLast (t d : ℚ) (ht : 0 < t) :
    ∀ current, current < d →
      (splitLoop allOk t d current).getLast?.map Seg.stop = some d := by
  intro current
  induction current using splitLoop.induct allOk t d with
  | case1 x hx hok ih =>
      intro _
      rw [splitLoop_cons allOk t d x hx.1 hx.2 rfl]
      by_cases he : min (x + t) d < d
      · have hne : splitLoop allOk t d (min (x + t) d) ≠ [] := by
          rw [splitLoop_cons allOk t d _ he hx.2 rfl]
          exact List.cons_ne_nil _ _
        rcases List.exists_cons_of_ne_nil hne with ⟨b, l, hbl⟩
        rw [hbl, List.getLast?_cons_cons, ← hbl]
        exact ih he
      · have hnil : splitLoop allOk t d (min (x + t) d) = [] :=
          splitLoop_eq_nil allOk t d _ (by intro hc; exact he hc.1)
        rw [hnil]
        have hmin : min (x + t) d = d := le_antisymm (min_le_right _ _) (not_lt.mp he)
        simp [hmin]
  | case2 x hx hok ih =>
      exact absurd rfl hok
  | case3 x hx =>
      intro hxd
      exact absurd ⟨hxd, ht⟩ hx

theorem splitLoop_starts_lt (ok : ℚ → ℚ → Bool) (t d : ℚ) (ht : 0 < t) :
    ∀ current, List.Pairwise (fun a b : Seg => a.start < b.start) (splitLoop ok t d current) := by
  intro current
  induction current using splitLoop.induct ok t d with
  | case1 x hx hok ih =>
      rw [splitLoop.eq_def, dif_pos hx, if_pos hok]
      refine List.Pairwise.cons ?_ ih
      intro y hy
      have hmem := (splitLoop_mem ok t d ht _ y hy).1
      have : x < min (x + t) d := lt_min (by linarith [hx.2]) hx.1
      exact lt_of_lt_of_le this hmem
  | case2 x hx hok ih =>
      rw [splitLoop.eq_def, dif_pos hx, if_neg hok]
      exact ih
  | case3 x hx =>
      rw [splitLoop_eq_nil ok t d x hx]
      exact List.Pairwise.nil

/-! ## Claim C1 -/

/-- Claim C1: for a probed duration `d` and threshold `t` (default 1800 s),
if `d ≤ t` the Segment Planner returns exactly one segment
`(original path, 0, d)` and performs no extraction; if `d > t` then,
assuming every per-stride extraction succeeds, it returns exactly
`⌈d / t⌉` segments that are contiguous and gapless, start at `0`, end at
`d`, each of length at most `t`, and the extracted file for the stride
starting at `s` carries sequence index `1 + ⌊s / t⌋`. -/
theorem split_plan_correct (t d : ℚ) (ht : 0 < t) :
    (d ≤ t → split_audio_file allOk t d = [⟨SegPath.original, 0, d⟩]) ∧
    (t < d →
      ((split_audio_file allOk t d).length : ℤ) = ⌈d / t⌉ ∧
      List.Chain' (fun a b : Seg => a.stop = b.start) (split_audio_file allOk t d) ∧
      (split_audio_file allOk t d).head?.map Seg.start = some 0 ∧
      (split_audio_file allOk t d).getLast?.map Seg.stop = some d ∧
      ∀ s ∈ split_audio_file allOk t d,
        s.stop - s.start ≤ t ∧ s.path = SegPath.segment (⌊s.start / t⌋ + 1)) := by
  constructor
  · intro hle
    rw [split_audio_file, if_pos hle]
  · intro hlt
    have hd0 : (0 : ℚ) < d := lt_trans ht hlt
    have hsplit : split_audio_file allOk t d = splitLoop allOk t d 0 := by
      rw [split_audio_file, if_neg (not_le.mpr hlt)]
    refine ⟨?_, ?_, ?_, ?_, ?_⟩
    · rw [hsplit, splitLoop_length t d ht 0 hd0, sub_zero,
        Int.toNat_of_nonneg (le_of_lt (Int.ceil_pos.mpr (div_pos hd0 ht)))]
    · rw [hsplit]
      exact splitLoop_chain t d ht 0
    · rw [hsplit, splitLoop_cons allOk t d 0 hd0 ht rfl]
      simp
    · rw [hsplit]
      exact splitLoop_getLast t d ht 0 hd0
    · rw [hsplit]
      intro s hs
      have hm := splitLoop_mem allOk t d ht 0 s hs
      refine ⟨?_, hm.2.2.2⟩
      rw [hm.2.2.1]
      have := min_le_left (s.start + t) d
      linarith

/-- Witness for C1 at `t = 1800`, `d = 2700`: a 45-minute file yields the
two segments `(1, 0, 1800)` and `(2, 1800, 2700)`. -/
theorem split_plan_correct_witness :
    (0 : ℚ) < 1800 ∧ (1800 : ℚ) < 2700 ∧
    split_audio_file allOk 1800 2700 =
      [⟨SegPath.segment 1, 0, 1800⟩, ⟨SegPath.segment 2, 1800, 2700⟩] ∧
    ((split_audio_file allOk 1800 2700).length : ℤ) = ⌈(2700 : ℚ) / 1800⌉ := by
  refine ⟨by norm_num, by norm_num, ?_,
    ((split_plan_correct 1800 2700 (by norm_num)).2 (by norm_num)).1⟩
  rw [split_audio_file]
  norm_num
  rw [splitLoop.eq_def]
  norm_num [allOk, createSegmentIndex, min_def]
  rw [splitLoop.eq_def]
  norm_num [allOk, createSegmentIndex, min_def]
  rw [splitLoop.eq_def]
  norm_num

/-! ## Claim C7 -/

/-- Claim C7 counterexample: for an audio file whose duration probe failed
(zero sentinel), the planner produces the degenerate segment
`(original, 0, 0)`, whose offsets do not satisfy `start < end`. -/
theorem split_zero_duration_counterexample :
    split_audio_file allOk max_segment_duration 0 = [⟨SegPath.original, 0, 0⟩] ∧
    ¬ ((0 : ℚ) < 0) := by
  constructor
  · rw [split_audio_file, if_pos (by norm_num [max_segment_duration])]
  · exact lt_irrefl 0

/-- Claim C7 (amended): for every file handed to the planner with
nonnegative probed duration — including the zero sentinel — every produced
segment satisfies `0 ≤ start ≤ end ≤ duration`, and the strict inequality
`start < end` holds whenever the duration is positive.  This holds for an
arbitrary extraction oracle `ok`, hence also when some extractions fail. -/
theorem split_segment_bounds (ok : ℚ → ℚ → Bool) (t d : ℚ) (ht : 0 < t) (hd : 0 ≤ d) :
    ∀ s ∈ split_audio_file ok t d,
      0 ≤ s.start ∧ s.start ≤ s.stop ∧ s.stop ≤ d ∧ (0 < d → s.start < s.stop) := by
  intro s hs
  rw [split_audio_file] at hs
  by_cases hle : d ≤ t
  · rw [if_pos hle] at hs
    rw [List.mem_singleton] at hs
    subst hs
    exact ⟨le_refl 0, hd, le_refl d, fun h0 => h0⟩
  · rw [if_neg hle] at hs
    have hm := splitLoop_mem ok t d ht 0 s hs
    have hstop : s.stop = min (s.start + t) d := hm.2.2.1
    have h1 : s.start < s.stop := by
      rw [hstop]
      exact lt_min (by linarith) hm.2.1
    exact ⟨hm.1, le_of_lt h1, by rw [hstop]; exact min_le_right _ _, fun _ => h1⟩

/-- Witness for the amended C7 at the zero-duration sentinel. -/
theorem split_segment_bounds_witness :
    (0 : ℚ) < 1800 ∧ (0 : ℚ) ≤ 0 ∧
    (⟨SegPath.original, 0, 0⟩ : Seg) ∈ split_audio_file allOk 1800 0 ∧
    (0 ≤ (0 : ℚ) ∧ (0 : ℚ) ≤ 0 ∧ (0 : ℚ) ≤ 0 ∧ ((0 : ℚ) < 0 → (0 : ℚ) < 0)) := by
  have hmem : (⟨SegPath.original, 0, 0⟩ : Seg) ∈ split_audio_file allOk 1800 0 := by
    rw [split_audio_file, if_pos (by norm_num)]
    exact List.mem_singleton.mpr rfl
  exact ⟨by norm_num, le_refl 0, hmem,
    split_segment_bounds allOk 1800 0 (by norm_num) (le_refl 0) _ hmem⟩

/-! ## Claim C3 -/

/-- An attempt outcome that triggers a retry: either an exception, or an
accumulated response that is empty after stripping. -/
def apiFails : ApiOutcome → Prop
  | ApiOutcome.exc => True
  | ApiOutcome.ok s => pyStrip s = ""

/-- Claim C3 counterexample: a worker whose remote call accumulates an
empty response on every attempt makes 3 attempts and returns `None`, but
performs no sleep at all — the source sleeps only inside the `except`
branch (line 397), never after an empty response — refuting the claimed
2 s and 4 s delays "for both trigger kinds". -/
theorem retry_empty_response_counterexample :
    call_gemini_api_with_retry (fun _ => ApiOutcome.ok "") max_retries retry_delay =
      ⟨none, 3, []⟩ ∧
    ([] : List Nat) ≠ [2, 4] := by
  constructor
  · rfl
  · intro h
    cases h

/-- Claim C3 (amended): a worker whose call fails on all three attempts
makes exactly 3 attempts and returns `None` without raising; a 2 s sleep
precedes the 2nd attempt and a 4 s sleep precedes the 3rd attempt exactly
when the preceding attempt raised an exception — an empty accumulated
response triggers the retry but no sleep. -/
theorem retry_exhaustion (outcomes : Nat → ApiOutcome)
    (h0 : apiFails (outcomes 0)) (h1 : apiFails (outcomes 1))
    (h2 : apiFails (outcomes 2)) :
    (call_gemini_api_with_retry outcomes max_retries retry_delay).result = none ∧
    (call_gemini_api_with_retry outcomes max_retries retry_delay).attempts = 3 ∧
    (call_gemini_api_with_retry outcomes max_retries retry_delay).sleeps =
      (if outcomes 0 = ApiOutcome.exc then [2] else []) ++
        (if outcomes 1 = ApiOutcome.exc then [4] else []) := by
  rcases ho0 : outcomes 0 with _ | s0 <;> rcases ho1 : outcomes 1 with _ | s1 <;>
    rcases ho2 : outcomes 2 with _ | s2 <;>
      rw [ho0] at h0 <;> rw [ho1] at h1 <;> rw [ho2] at h2 <;>
        simp [apiFails] at h0 h1 h2 <;>
          simp [call_gemini_api_with_retry, retryFrom, max_retries, retry_delay,
            ho0, ho1, ho2, h0, h1, h2]

/-- Witness for the amended C3: a worker raising on every attempt sleeps
2 s then 4 s and yields no result after 3 attempts. -/
theorem retry_exhaustion_witness :
    apiFails ((fun _ => ApiOutcome.exc) 0) ∧ apiFails ((fun _ => ApiOutcome.exc) 1) ∧
    apiFails ((fun _ => ApiOutcome.exc) 2) ∧
    (call_gemini_api_with_retry (fun _ => ApiOutcome.exc) max_retries retry_delay).result
      = none ∧
    (call_gemini_api_with_retry (fun _ => ApiOutcome.exc) max_retries retry_delay).attempts
      = 3 ∧
    (call_gemini_api_with_retry (fun _ => ApiOutcome.exc) max_retries retry_delay).sleeps
      = [2, 4] := by
  obtain ⟨hr, ha, hs⟩ :=
    retry_exhaustion (fun _ => ApiOutcome.exc) trivial trivial trivial
  exact ⟨trivial, trivial, trivial, hr, ha, by simpa using hs⟩

/-! ## Lemmas about the result merger -/

/-- The contribution of the result at enumeration index `i` to the merged
full text, for a batch of `n` results. -/
def contrib (n i : Nat) (r : TResult) : String :=
  if pyStrip r.text = "" then ""
  else (if 1 < n then blockHeader i r.start r.stop else "") ++ pyStrip r.text

/-- The accumulated full text of the merge loop over a result list,
starting at enumeration index `i`. -/
def mergeText (n : Nat) : Nat → List TResult → String
  | _, [] => ""
  | i, r :: l => contrib n i r ++ mergeText n (i + 1) l

/-- The merged per-segment listing: one `(start, end, stripped text)`
entry per result with nonempty stripped text, in input order. -/
def segsOf (l : List TResult) : List (ℚ × ℚ × String) :=
  (l.filter fun r => pyStrip r.text != "").map fun r => (r.start, r.stop, pyStrip r.text)

theorem merge_foldl_eq (n : Nat) :
    ∀ (l : List TResult) (i : Nat) (acc : String × List (ℚ × ℚ × String)),
      (List.enumFrom i l).foldl (mergeStep n) acc =
        (acc.1 ++ mergeText n i l, acc.2 ++ segsOf l) := by
  intro l
  induction l with
  | nil =>
      intro i acc
      simp [mergeText, segsOf]
  | cons r l ih =>
      intro i acc
      rw [List.enumFrom_cons, List.foldl_cons, ih (i + 1)]
      by_cases hr : pyStrip r.text = ""
      · simp [mergeStep, hr, mergeText, contrib, segsOf]
      · by_cases hn : 1 < n

        · simp [mergeStep, hr, hn, mergeText, contrib, segsOf, String.append_assoc]
        · simp [mergeStep, hr, hn, mergeText, contrib, segsOf, String.append_assoc]

theorem merge_eq (results : List TResult) (h : results ≠ []) :
    merge_transcription_results results =
      ⟨pyStrip (mergeText results.length 0 results), segsOf results,
        some results.length⟩ := by
  rw [merge_transcription_results]
  rw [if_neg (by simpa using h)]
  show (⟨pyStrip ((List.enumFrom 0 results).foldl (mergeStep results.length) ("", [])).1,
      ((List.enumFrom 0 results).foldl (mergeStep results.length) ("", [])).2,
      some results.length⟩ : Merged) = _
  rw [merge_foldl_eq results.length results 0 ("", [])]
  simp

theorem merge_segments_eq (results : List TResult) :
    (merge_transcription_results results).segments = segsOf results := by
  match results with
  | [] => rfl
  | r :: l => rw [merge_eq (r :: l) (List.cons_ne_nil r l)]

/-! ## Claim C2 -/

/-- The strict version of the sort key, used to show that a sorted batch
with pairwise distinct start offsets is unique. -/
def resultLT (a b : TResult) : Prop := a.start < b.start

instance : IsAntisymm TResult resultLT :=
  ⟨fun _ _ hab hba => absurd hba (lt_asymm hab)⟩

theorem sort_eq_of_perm (l₁ l₂ : List TResult) (hperm : l₁.Perm l₂)
    (hnd : l₁.Pairwise fun a b => a.start ≠ b.start) :
    sortResultsByStart l₁ = sortResultsByStart l₂ := by
  have p1 : (sortResultsByStart l₁).Perm l₁ := List.perm_insertionSort _ _
  have p2 : (sortResultsByStart l₂).Perm l₂ := List.perm_insertionSort _ _
  have s1 : (sortResultsByStart l₁).Sorted resultLE := List.sorted_insertionSort _ _
  have s2 : (sortResultsByStart l₂).Sorted resultLE := List.sorted_insertionSort _ _
  have hsym : ∀ {a b : TResult}, a.start ≠ b.start → b.start ≠ a.start :=
    fun h => h.symm
  have nd1 : (sortResultsByStart l₁).Pairwise (fun a b => a.start ≠ b.start) :=
    (p1.pairwise_iff hsym).mpr hnd
  have nd2 : (sortResultsByStart l₂).Pairwise (fun a b => a.start ≠ b.start) :=
    ((p2.trans hperm.symm).pairwise_iff hsym).mpr hnd
  have st1 : (sortResultsByStart l₁).Sorted resultLT :=
    (s1.and nd1).imp fun h => lt_of_le_of_ne h.1 h.2
  have st2 : (sortResultsByStart l₂).Sorted resultLT :=
    (s2.and nd2).imp fun h => lt_of_le_of_ne h.1 h.2
  exact List.eq_of_perm_of_sorted (p1.trans (hperm.trans p2.symm)) st1 st2

/-- Claim C2: feeding the same set of TranscriptionResults (with pairwise
distinct start offsets, as any one segment batch has) to the merger in
any two input orders yields an identical merged full text and an
identical per-segment listing, and that listing is ordered by start
offset ascending — never by completion order. -/
theorem merge_permutation_invariant (l₁ l₂ : List TResult) (hperm : l₁.Perm l₂)
    (hnd : l₁.Pairwise fun a b => a.start ≠ b.start) :
    mergeOfBatch l₁ = mergeOfBatch l₂ ∧
    List.Pairwise (fun a b : ℚ × ℚ × String => a.1 ≤ b.1) (mergeOfBatch l₁).segments := by
  constructor
  · rw [mergeOfBatch, mergeOfBatch, sort_eq_of_perm l₁ l₂ hperm hnd]
  · rw [mergeOfBatch, merge_segments_eq, segsOf]
    rw [List.pairwise_map]
    refine List.Pairwise.imp ?_
      (List.Pairwise.filter (R := resultLE) (fun r => pyStrip r.text != "")
        (List.sorted_insertionSort resultLE l₁))
    intro a b hab
    exact hab

/-- Witness for C2: two orders of the same two-result batch. -/
theorem merge_permutation_invariant_witness :
    ([⟨"a", 0, 1800⟩, ⟨"b", 1800, 2700⟩] : List TResult).Perm
      [⟨"b", 1800, 2700⟩, ⟨"a", 0, 1800⟩] ∧
    ([⟨"a", 0, 1800⟩, ⟨"b", 1800, 2700⟩] : List TResult).Pairwise
      (fun a b => a.start ≠ b.start) ∧
    mergeOfBatch [⟨"a", 0, 1800⟩, ⟨"b", 1800, 2700⟩] =
      mergeOfBatch [⟨"b", 1800, 2700⟩, ⟨"a", 0, 1800⟩] := by
  refine ⟨by decide, by decide, (merge_permutation_invariant _ _ (by decide) (by decide)).1⟩

/-! ## Idempotence of stripping (needed for the single-result merge case) -/

/-- The character-list form of `pyStrip`. -/
def charStrip (l : List Char) : List Char :=
  ((l.dropWhile isPySpace).reverse.dropWhile isPySpace).reverse

theorem dropWhile_head_not {α : Type} (p : α → Bool) (l : List α) :
    ∀ x ∈ (l.dropWhile p).head?, p x = false := by
  induction l with
  | nil =>
      intro x hx
      cases hx
  | cons a l ih =>
      intro x hx
      by_cases ha : p a
      · rw [List.dropWhile_cons] at hx
        simp only [ha, if_pos] at hx
        exact ih x hx
      · rw [List.dropWhile_cons] at hx
        simp only [ha, if_neg, Bool.false_eq_true, not_false_eq_true] at hx
        simp only [List.head?_cons, Option.mem_def, Option.some.injEq] at hx
        subst hx
        exact Bool.eq_false_iff.mpr ha

theorem dropWhile_of_head_not {α : Type} (p : α → Bool) (l : List α)
    (h : ∀ x ∈ l.head?, p x = false) : l.dropWhile p = l := by
  cases l with
  | nil => rfl
  | cons a l =>
      have ha := h a rfl
      simp [List.dropWhile_cons, ha]

theorem dropWhile_getLast_eq {α : Type} (p : α → Bool) (l : List α)
    (h : l.dropWhile p ≠ []) : (l.dropWhile p).getLast? = l.getLast? := by
  induction l with
  | nil => exact absurd rfl h
  | cons a l ih =>
      by_cases ha : p a
      · rw [List.dropWhile_cons] at h ⊢
        simp only [ha, if_pos] at h ⊢
        have hl0 : l ≠ [] := by
          intro e
          rw [e] at h
          exact h rfl
        obtain ⟨b, l', rfl⟩ := List.exists_cons_of_ne_nil hl0
        rw [ih h, List.getLast?_cons_cons]
      · rw [List.dropWhile_cons]
        simp only [ha, if_neg, Bool.false_eq_true, not_false_eq_true]

theorem charStrip_head_not (l : List Char) :
    ∀ x ∈ (charStrip l).head?, isPySpace x = false := by
  intro x hx
  unfold charStrip at hx
  rcases hb : (l.dropWhile isPySpace).reverse.dropWhile isPySpace with _ | ⟨c, cs⟩
  · rw [hb] at hx
    cases hx
  · rw [hb] at hx
    rw [List.head?_reverse] at hx
    have hgl : (c :: cs).getLast? = (l.dropWhile isPySpace).reverse.getLast? := by
      rw [← hb]
      exact dropWhile_getLast_eq _ _ (by rw [hb]; exact List.cons_ne_nil _ _)
    rw [hgl, List.getLast?_reverse] at hx
    exact dropWhile_head_not _ _ x hx

theorem charStrip_getLast_not (l : List Char) :
    ∀ x ∈ (charStrip l).getLast?, isPySpace x = false := by
  intro x hx
  unfold charStrip at hx
  rw [List.getLast?_reverse] at hx
  exact dropWhile_head_not _ _ x hx

theorem charStrip_idem (l : List Char) : charStrip (charStrip l) = charStrip l := by
  have h1 : (charStrip l).dropWhile isPySpace = charStrip l :=
    dropWhile_of_head_not _ _ (charStrip_head_not l)
  have h2 : (charStrip l).reverse.dropWhile isPySpace = (charStrip l).reverse := by
    apply dropWhile_of_head_not
    intro x hx
    rw [List.head?_reverse] at hx
    exact charStrip_getLast_not l x hx
  show (((charStrip l).dropWhile isPySpace).reverse.dropWhile isPySpace).reverse = charStrip l
  rw [h1, h2, List.reverse_reverse]

theorem pyStrip_idem (s : String) : pyStrip (pyStrip s) = pyStrip s := by
  show String.mk (charStrip (charStrip s.data)) = String.mk (charStrip s.data)
  rw [charStrip_idem]

/-! ## Claim C4 -/

/-- Claim C4 counterexample: merging the two results `"hello"` and
`"world"` produces a full text that begins with the block header
`--- 區塊 1 (0s - 1800s) ---` immediately before the FIRST segment's
text (only the two leading blank lines are stripped, line 492), refuting
"no such header before the first segment's text". -/
theorem merge_header_counterexample :
    (merge_transcription_results [⟨"hello", 0, 1800⟩, ⟨"world", 1800, 2700⟩]).text =
      "--- 區塊 1 (0s - 1800s) ---\nhello\n\n--- 區塊 2 (1800s - 2700s) ---\nworld" ∧
    "--- 區塊 1 (0s - 1800s) ---\nhello\n\n--- 區塊 2 (1800s - 2700s) ---\nworld" ≠
      "hello\n\n--- 區塊 2 (1800s - 2700s) ---\nworld" := by
  exact ⟨by decide, by decide⟩

/-- Claim C4 (amended): whenever more than one result is merged, a block
header of the form `--- 區塊 i (start s - end s) ---` immediately precedes
EVERY contributing segment's text, the first included (the leading blank
lines of the first header are stripped from the final text, the header
itself remains); when exactly one result is merged, the sole text is
emitted unadorned with no header at all. -/
theorem merge_header_placement (results : List TResult) :
    (1 < results.length →
      (merge_transcription_results results).text =
        pyStrip (mergeText results.length 0 results)) ∧
    (results.length = 1 →
      (merge_transcription_results results).text =
        pyStrip (((results.head?).map TResult.text).getD "")) := by
  constructor
  · intro hn
    have hne : results ≠ [] := by
      intro e
      rw [e] at hn
      exact absurd hn (by decide)
    rw [merge_eq results hne]
  · intro hn
    match results, hn with
    | [r], _ =>
      rw [merge_eq [r] (List.cons_ne_nil r [])]
      show pyStrip (mergeText 1 0 [r]) = pyStrip r.text
      simp only [mergeText, contrib]
      by_cases hr : pyStrip r.text = ""
      · rw [if_pos hr, hr]
        rfl
      · rw [if_neg hr, if_neg (by norm_num : ¬ (1 : Nat) < 1)]
        show pyStrip (("" ++ pyStrip r.text) ++ "") = pyStrip r.text
        rw [String.empty_append, String.append_empty, pyStrip_idem]

/-- Witness for the amended C4 at a concrete two-result batch. -/
theorem merge_header_placement_witness :
    1 < ([⟨"hello", 0, 1800⟩, ⟨"world", 1800, 2700⟩] : List TResult).length ∧
    (merge_transcription_results [⟨"hello", 0, 1800⟩, ⟨"world", 1800, 2700⟩]).text =
      pyStrip (mergeText 2 0 [⟨"hello", 0, 1800⟩, ⟨"world", 1800, 2700⟩]) := by
  exact ⟨by decide, (merge_header_placement _).1 (by decide)⟩

/-! ## Claim C6 -/

/-- Claim C6 counterexample: three segments `[0,1800]`, `[1800,3600]`,
`[3600,5400]` are planned; segment 2 yields no result while 1 and 3
succeed with texts `"one"` and `"three"`.  The merged text contains
exactly the two texts in order and labels segment 3 with its true
offsets `3600s - 5400s` — but under the block header index 2:
`enumerate` renumbers the surviving results, so segment 3 IS presented
as block 2 of 2, refuting "is not renumbered as segment 2". -/
theorem merge_renumber_counterexample :
    (mergeOfBatch [⟨"three", 3600, 5400⟩, ⟨"one", 0, 1800⟩]).text =
      "--- 區塊 1 (0s - 1800s) ---\none\n\n--- 區塊 2 (3600s - 5400s) ---\nthree" ∧
    "--- 區塊 1 (0s - 1800s) ---\none\n\n--- 區塊 2 (3600s - 5400s) ---\nthree" ≠
      "--- 區塊 1 (0s - 1800s) ---\none\n\n--- 區塊 3 (3600s - 5400s) ---\nthree" := by
  exact ⟨by decide, by decide⟩

/-- Claim C6 (amended): when only the first and third of three planned
segments yield results, the merged transcript contains exactly those two
texts, in start order for any completion order, each entry of the
per-segment listing labeled with its true original start and end
offsets; the two block headers also carry the true offsets but are
numbered sequentially over the surviving results, so the third segment
appears under block index 2. -/
theorem merge_two_survivors (r1 r3 : TResult) (l : List TResult)
    (hperm : l.Perm [r1, r3]) (hlt : r1.start < r3.start)
    (h1 : pyStrip r1.text ≠ "") (h3 : pyStrip r3.text ≠ "") :
    (mergeOfBatch l).text =
      pyStrip (blockHeader 0 r1.start r1.stop ++ pyStrip r1.text ++
        (blockHeader 1 r3.start r3.stop ++ pyStrip r3.text)) ∧
    (mergeOfBatch l).segments =
      [(r1.start, r1.stop, pyStrip r1.text), (r3.start, r3.stop, pyStrip r3.text)] := by
  have hnd : l.Pairwise fun a b => a.start ≠ b.start := by
    refine (hperm.pairwise_iff (fun h => h.symm)).mpr ?_
    exact List.Pairwise.cons (by
      intro b hb
      rw [List.mem_singleton] at hb
      subst hb
      exact ne_of_lt hlt) (List.Pairwise.cons (by intro b hb; cases hb) List.Pairwise.nil)
  have hsorted : sortResultsByStart [r1, r3] = [r1, r3] := by
    simp [sortResultsByStart, List.insertionSort, List.orderedInsert, resultLE, le_of_lt hlt]
  have hsl : sortResultsByStart l = [r1, r3] := by
    rw [sort_eq_of_perm l [r1, r3] hperm hnd, hsorted]
  rw [mergeOfBatch, hsl, merge_eq [r1, r3] (List.cons_ne_nil _ _)]
  constructor
  · show pyStrip (mergeText 2 0 [r1, r3]) = _
    simp only [mergeText, contrib]
    rw [if_neg h1, if_neg h3, if_pos (by norm_num : (1 : Nat) < 2),
      if_pos (by norm_num : (1 : Nat) < 2), String.append_empty]
  · show segsOf [r1, r3] = _
    simp [segsOf, h1, h3]

/-- Witness for the amended C6: completion order `(segment 3, segment 1)`
still merges into start order with true offsets. -/
theorem merge_two_survivors_witness :
    ([⟨"three", 3600, 5400⟩, ⟨"one", 0, 1800⟩] : List TResult).Perm
      [⟨"one", 0, 1800⟩, ⟨"three", 3600, 5400⟩] ∧
    (⟨"one", 0, 1800⟩ : TResult).start < (⟨"three", 3600, 5400⟩ : TResult).start ∧
    pyStrip (⟨"one", 0, 1800⟩ : TResult).text ≠ "" ∧
    pyStrip (⟨"three", 3600, 5400⟩ : TResult).text ≠ "" ∧
    (mergeOfBatch [⟨"three", 3600, 5400⟩, ⟨"one", 0, 1800⟩]).segments =
      [(0, 1800, pyStrip "one"), (3600, 5400, pyStrip "three")] := by
  refine ⟨by decide, by decide, by decide, by decide, ?_⟩
  exact (merge_two_survivors ⟨"one", 0, 1800⟩ ⟨"three", 3600, 5400⟩
    [⟨"three", 3600, 5400⟩, ⟨"one", 0, 1800⟩] (by decide) (by decide)
    (by decide) (by decide)).2

/-! ## Lemmas about path suffixes and the generated segment names -/

theorem takeWhile_all_stop {α : Type} (p : α → Bool) (l₁ : List α) (a : α) (l₂ : List α)
    (h₁ : ∀ x ∈ l₁, p x = true) (ha : p a = false) :
    (l₁ ++ a :: l₂).takeWhile p = l₁ := by
  induction l₁ with
  | nil =>
      simp [List.takeWhile_cons, ha]
  | cons x xs ih =>
      have hx := h₁ x (List.mem_cons_self x xs)
      rw [List.cons_append, List.takeWhile_cons, hx]
      simp only [if_pos]
      rw [ih fun y hy => h₁ y (List.mem_cons_of_mem x hy)]

theorem takeWhile_mem_pred {α : Type} (p : α → Bool) (l : List α) :
    ∀ x ∈ l.takeWhile p, p x = true := by
  induction l with
  | nil =>
      intro x hx
      cases hx
  | cons a l ih =>
      intro x hx
      rw [List.takeWhile_cons] at hx
      by_cases ha : p a
      · rw [if_pos ha] at hx
        rcases List.mem_cons.mp hx with rfl | hx
        · exact ha
        · exact ih x hx
      · rw [if_neg ha] at hx
        cases hx

theorem suffixChars_concat (s ext : List Char) (hs : s ≠ []) (he : ext ≠ [])
    (hd : ∀ c ∈ ext, c ≠ '.') :
    suffixChars (s ++ '.' :: ext) = '.' :: ext := by
  have hrev : (s ++ '.' :: ext).reverse = ext.reverse ++ '.' :: s.reverse := by
    rw [List.reverse_append, List.reverse_cons, List.append_assoc, List.singleton_append]
  have htake : ((s ++ '.' :: ext).reverse.takeWhile fun c => c ≠ '.') = ext.reverse := by
    rw [hrev]
    refine takeWhile_all_stop _ _ _ _ ?_ (by simp)
    intro x hx
    simp only [ne_eq, decide_not, Bool.not_eq_true', decide_eq_false_iff_not]
    exact hd x (List.mem_reverse.mp hx)
  unfold suffixChars
  rw [htake]
  have hle : ext.length + 1 ≤ s.length + (ext.length + 1) := by omega
  have hs1 : 1 ≤ s.length := by
    cases s with
    | nil => exact absurd rfl hs
    | cons a l => simp
  have he1 : 1 ≤ ext.length := by
    cases ext with
    | nil => exact absurd rfl he
    | cons a l => simp
  simp only [List.length_reverse, List.length_append, List.length_cons]
  rw [if_neg (by omega), if_neg (by omega), if_neg (by omega), List.reverse_reverse]

theorem suffixChars_shape (cs : List Char) :
    suffixChars cs = [] ∨
    ∃ s ext, cs = s ++ '.' :: ext ∧ suffixChars cs = '.' :: ext ∧ s ≠ [] ∧
      ext ≠ [] ∧ ∀ c ∈ ext, c ≠ '.' := by
  by_cases h1 : (cs.reverse.takeWhile fun c => c ≠ '.').length = cs.length
  · left
    unfold suffixChars
    rw [if_pos (by simpa using h1)]
  by_cases h2 : (cs.reverse.takeWhile fun c => c ≠ '.').length = 0
  · left
    unfold suffixChars
    rw [if_neg (by simpa using h1), if_pos (by simpa using h2)]
  by_cases h3 : (cs.reverse.takeWhile fun c => c ≠ '.').length = cs.length - 1
  · left
    unfold suffixChars
    rw [if_neg (by simpa using h1), if_neg (by simpa using h2),
      if_pos (by simpa using h3)]
  · right
    set pre := cs.reverse.takeWhile fun c => c ≠ '.' with hpre
    have hsplit := List.takeWhile_append_dropWhile
      (p := fun c => decide (c ≠ '.')) (l := cs.reverse)
    have hdropne : cs.reverse.dropWhile (fun c => decide (c ≠ '.')) ≠ [] := by
      intro e
      rw [e, List.append_nil] at hsplit
      have : pre.length = cs.length := by
        rw [hpre]
        conv_rhs => rw [← List.length_reverse cs]
        rw [hsplit]
      exact h1 this
    obtain ⟨x, rest, hxr⟩ := List.exists_cons_of_ne_nil hdropne
    have hxdot : x = '.' := by
      have := dropWhile_head_not (fun c => decide (c ≠ '.')) cs.reverse x
        (by rw [hxr]; rfl)
      simpa using this
    subst hxdot
    have hrev : cs.reverse = pre ++ '.' :: rest := by
      rw [← hsplit, hxr]
    have hcs : cs = rest.reverse ++ '.' :: pre.reverse := by
      have := congrArg List.reverse hrev
      rw [List.reverse_reverse] at this
      rw [this, List.reverse_append, List.reverse_cons, List.append_assoc,
        List.singleton_append]
    have hlen : cs.length = pre.length + 1 + rest.length := by
      have h := congrArg List.length hrev
      simp [List.length_reverse, List.length_append] at h
      omega
    refine ⟨rest.reverse, pre.reverse, hcs, ?_, ?_, ?_, ?_⟩
    · unfold suffixChars
      rw [← hpre, if_neg (by simpa using h1), if_neg (by simpa using h2),
        if_neg (by simpa using h3)]
    · intro e
      have hre : rest = [] := by simpa using congrArg List.reverse e
      rw [hre] at hlen
      simp at hlen
      exact h3 (by omega)
    · intro e
      have : pre = [] := by simpa using congrArg List.reverse e
      exact h2 (by rw [this]; rfl)
    · intro c hc
      have := takeWhile_mem_pred (fun c => decide (c ≠ '.')) cs.reverse c
        (by rw [← hpre]; exact List.mem_reverse.mp hc)
      simpa using this

/-- The ten decimal digit characters. -/
def digitChars : List Char := ['0', '1', '2', '3', '4', '5', '6', '7', '8', '9']

theorem digitChar_mem (d : Nat) (hd : d < 10) : Nat.digitChar d ∈ digitChars := by
  interval_cases d <;> decide

theorem decimalDigitsAux_digits (fuel : Nat) :
    ∀ n, ∀ c ∈ decimalDigitsAux fuel n, c ∈ digitChars := by
  induction fuel with
  | zero =>
      intro n c hc
      cases hc
  | succ fuel ih =>
      intro n c hc
      simp only [decimalDigitsAux] at hc
      by_cases hn : n < 10
      · rw [if_pos hn, List.mem_singleton] at hc
        subst hc
        exact digitChar_mem n hn
      · rw [if_neg hn] at hc
        rcases List.mem_append.mp hc with hc | hc
        · exact ih _ c hc
        · rw [List.mem_singleton] at hc
          subst hc
          exact digitChar_mem _ (Nat.mod_lt _ (by norm_num))

theorem decimalDigits_digits (n : Nat) : ∀ c ∈ decimalDigits n, c ∈ digitChars :=
  decimalDigitsAux_digits (n + 1) n

theorem decimalDigits_ne_nil (n : Nat) : decimalDigits n ≠ [] := by
  unfold decimalDigits decimalDigitsAux
  by_cases hn : n < 10
  · rw [if_pos hn]
    exact List.cons_ne_nil _ _
  · rw [if_neg hn]
    simp

theorem fmt03d_data_digits (i : ℤ) (hi : 0 ≤ i) :
    (fmt03d i).data ≠ [] ∧ ∀ c ∈ (fmt03d i).data, c ∈ digitChars := by
  unfold fmt03d
  rw [if_neg (not_lt.mpr hi)]
  unfold padZeros natRender
  by_cases h : (String.mk (decimalDigits i.toNat)).length < 3
  · rw [if_pos h]
    constructor
    · show List.replicate _ '0' ++ decimalDigits i.toNat ≠ []
      simp [decimalDigits_ne_nil]
    · intro c hc
      rcases List.mem_append.mp hc with hc | hc
      · rw [List.eq_of_mem_replicate hc]
        decide
      · exact decimalDigits_digits _ c hc
  · rw [if_neg h]
    exact ⟨decimalDigits_ne_nil _, decimalDigits_digits _⟩

theorem digit_ne_dot {c : Char} (hc : c ∈ digitChars) : c ≠ '.' := by
  fin_cases hc <;> decide

/-- The suffix of a name that has a nonempty suffix decomposes the name. -/
theorem pathSuffix_shape (name : String) (h : pathSuffix name ≠ "") :
    ∃ s ext, name.data = s ++ '.' :: ext ∧ suffixChars name.data = '.' :: ext ∧
      s ≠ [] ∧ ext ≠ [] ∧ ∀ c ∈ ext, c ≠ '.' := by
  rcases suffixChars_shape name.data with h0 | hsh
  · refine absurd ?_ h
    show String.mk (suffixChars name.data) = ""
    rw [h0]
  · exact hsh

/-- The generated segment name `fmt03d i ++ suffix`: it keeps the suffix
of the source, is not hidden, and its stem is exactly the padded index. -/
theorem segName_facts (name : String) (i : ℤ) (hi : 0 ≤ i)
    (hne : pathSuffix name ≠ "") :
    pathSuffix (fmt03d i ++ pathSuffix name) = pathSuffix name ∧
    isHiddenName (fmt03d i ++ pathSuffix name) = false ∧
    pathStem (fmt03d i ++ pathSuffix name) = fmt03d i := by
  obtain ⟨s, ext, hdec, hsuf, hs, hext, hdot⟩ := pathSuffix_shape name hne
  obtain ⟨hD, hDdig⟩ := fmt03d_data_digits i hi
  have hdata : (fmt03d i ++ pathSuffix name).data = (fmt03d i).data ++ '.' :: ext := by
    rw [String.data_append]
    show _ ++ suffixChars name.data = _
    rw [hsuf]
  have hconc : suffixChars ((fmt03d i).data ++ '.' :: ext) = '.' :: ext :=
    suffixChars_concat _ _ hD hext hdot
  refine ⟨?_, ?_, ?_⟩
  · show String.mk (suffixChars (fmt03d i ++ pathSuffix name).data) = _
    rw [hdata, hconc]
    show _ = String.mk (suffixChars name.data)
    rw [hsuf]
  · obtain ⟨c0, D', hD'⟩ := List.exists_cons_of_ne_nil hD
    have hc0 : c0 ∈ digitChars := hDdig c0 (by rw [hD']; exact List.mem_cons_self _ _)
    unfold isHiddenName
    rw [hdata, hD']
    show decide (c0 = '.') = false
    simp only [decide_eq_false_iff_not]
    exact digit_ne_dot hc0
  · show String.mk ((fmt03d i ++ pathSuffix name).data.take
      ((fmt03d i ++ pathSuffix name).data.length
        - (suffixChars (fmt03d i ++ pathSuffix name).data).length)) = _
    rw [hdata, hconc]
    have hlen : ((fmt03d i).data ++ '.' :: ext).length - ('.' :: ext).length
        = (fmt03d i).data.length := by
      simp [List.length_append]
    rw [hlen, List.take_left]

/-- The derived transcript name of any name with a nonempty suffix carries
the suffix `.txt`. -/
theorem transcript_name_suffix (name : String) (hne : pathSuffix name ≠ "") :
    pathSuffix (pathStem name ++ ".txt") = ".txt" := by
  obtain ⟨s, ext, hdec, hsuf, hs, hext, hdot⟩ := pathSuffix_shape name hne
  have hstem : (pathStem name).data = s := by
    show name.data.take (name.data.length - (suffixChars name.data).length) = s
    rw [hsuf, hdec]
    have hlen : (s ++ '.' :: ext).length - ('.' :: ext).length = s.length := by
      simp [List.length_append]
    rw [hlen, List.take_left]
  have hdata : (pathStem name ++ ".txt").data = s ++ '.' :: ['t', 'x', 't'] := by
    rw [String.data_append, hstem]
  show String.mk (suffixChars (pathStem name ++ ".txt").data) = _
  rw [hdata, suffixChars_concat s ['t', 'x', 't'] hs (by decide) (by decide)]

/-- A path whose lowercased suffix is a supported audio extension has a
nonempty suffix. -/
theorem supported_suffix_ne_empty (name : String)
    (hsup : strLower (pathSuffix name) ∈ audio_extensions) :
    pathSuffix name ≠ "" := by
  intro h0
  rw [h0] at hsup
  exact absurd hsup (by decide)

/-! ## Claim C10 -/

/-- Claim C10: the extractor places each sub-file in the directory of the
source under the name `fmt03d index ++ suffix` (zero-padded sequence index
plus the source extension only — the `stem` computed on line 229 is never
used, so the name carries no trace of the source stem); that name keeps
the source's supported audio extension and does not begin with a dot, so
every tree containing a retained sub-file entry returns it from
`find_audio_files`, and `needs_transcription` holds for it exactly until
the matching artifact `fmt03d index ++ ".txt"` exists alongside it. -/
theorem segment_file_rediscovered (tree : FS) (audio : FsPath) (i : ℤ) (hi : 0 ≤ i)
    (hsup : strLower (pathSuffix audio.name) ∈ audio_extensions)
    (hmem : (⟨segFile audio (SegPath.segment i), true⟩ : FsEntry) ∈ tree) :
    segFile audio (SegPath.segment i) =
      ⟨audio.dir, fmt03d i ++ pathSuffix audio.name⟩ ∧
    strLower (pathSuffix (segFile audio (SegPath.segment i)).name) ∈ audio_extensions ∧
    isHiddenName (segFile audio (SegPath.segment i)).name = false ∧
    segFile audio (SegPath.segment i) ∈ find_audio_files tree ∧
    get_transcript_path (segFile audio (SegPath.segment i)) =
      ⟨audio.dir, fmt03d i ++ ".txt"⟩ ∧
    (needs_transcription tree (segFile audio (SegPath.segment i)) = true ↔
      fsExists tree ⟨audio.dir, fmt03d i ++ ".txt"⟩ = false) := by
  have hne : pathSuffix audio.name ≠ "" := supported_suffix_ne_empty audio.name hsup
  obtain ⟨hsufeq, hhid, hstem⟩ := segName_facts audio.name i hi hne
  have hsup2 : strLower (pathSuffix (fmt03d i ++ pathSuffix audio.name))
      ∈ audio_extensions := by
    rw [hsufeq]
    exact hsup
  have htp : get_transcript_path (segFile audio (SegPath.segment i)) =
      ⟨audio.dir, fmt03d i ++ ".txt"⟩ := by
    show FsPath.mk audio.dir (pathStem (fmt03d i ++ pathSuffix audio.name) ++ ".txt") = _
    rw [hstem]
  refine ⟨rfl, hsup2, hhid, ?_, htp, ?_⟩
  · refine List.mem_map.mpr ⟨⟨segFile audio (SegPath.segment i), true⟩, ?_, rfl⟩
    refine List.mem_filter.mpr ⟨hmem, ?_⟩
    simp only [Bool.and_eq_true, decide_eq_true_eq, Bool.not_eq_true']
    exact ⟨⟨trivial, hsup2⟩, hhid⟩
  · rw [needs_transcription, htp]
    cases fsExists tree ⟨audio.dir, fmt03d i ++ ".txt"⟩ <;> simp

/-- Witness for C10: the retained sub-file `001.mp3` of `ep.mp3` is picked
up again by the inventory scan of its directory. -/
theorem segment_file_rediscovered_witness :
    (0 : ℤ) ≤ 1 ∧
    strLower (pathSuffix (FsPath.mk "/a" "ep.mp3").name) ∈ audio_extensions ∧
    (⟨segFile ⟨"/a", "ep.mp3"⟩ (SegPath.segment 1), true⟩ : FsEntry) ∈
      ([⟨⟨"/a", "001.mp3"⟩, true⟩, ⟨⟨"/a", "ep.mp3"⟩, true⟩] : FS) ∧
    segFile ⟨"/a", "ep.mp3"⟩ (SegPath.segment 1) = ⟨"/a", "001.mp3"⟩ ∧
    segFile ⟨"/a", "ep.mp3"⟩ (SegPath.segment 1) ∈
      find_audio_files [⟨⟨"/a", "001.mp3"⟩, true⟩, ⟨⟨"/a", "ep.mp3"⟩, true⟩] ∧
    needs_transcription [⟨⟨"/a", "001.mp3"⟩, true⟩, ⟨⟨"/a", "ep.mp3"⟩, true⟩]
      (segFile ⟨"/a", "ep.mp3"⟩ (SegPath.segment 1)) = true := by
  refine ⟨by decide, by decide, by decide, by decide, ?_, by decide⟩
  exact (segment_file_rediscovered
    [⟨⟨"/a", "001.mp3"⟩, true⟩, ⟨⟨"/a", "ep.mp3"⟩, true⟩]
    ⟨"/a", "ep.mp3"⟩ 1 (by decide) (by decide) (by decide)).2.2.2.1

/-! ## Lemmas about the filesystem operations of the pipeline -/

theorem fsAddFile_exists (fs : FS) (p q : FsPath) :
    fsExists (fsAddFile fs p) q = ((p == q) || fsExists fs q) := by
  simp [fsExists, fsAddFile]

theorem fsRemove_exists_self (fs : FS) (p : FsPath) :
    fsExists (fsRemove fs p) p = false := by
  induction fs with
  | nil => rfl
  | cons e fs ih =>
      show ((e :: fs).filter fun x => x.path != p).any (fun x => x.path == p) = false
      rw [List.filter_cons]
      by_cases hep : e.path = p
      · rw [if_neg (by simp [hep])]
        exact ih
      · rw [if_pos (by simp [hep])]
        rw [List.any_cons]
        have h2 : (e.path == p) = false := by simp [hep]
        rw [h2, Bool.false_or]
        exact ih

theorem fsRemove_exists_other (fs : FS) (p q : FsPath) (h : q ≠ p) :
    fsExists (fsRemove fs p) q = fsExists fs q := by
  induction fs with
  | nil => rfl
  | cons e fs ih =>
      show ((e :: fs).filter fun x => x.path != p).any (fun x => x.path == q)
          = (e :: fs).any fun x => x.path == q
      rw [List.filter_cons]
      by_cases hep : e.path = p
      · rw [if_neg (by simp [hep])]
        rw [List.any_cons]
        have h2 : (e.path == q) = false := by
          simp only [beq_eq_false_iff_ne, ne_eq]
          rw [hep]
          exact fun hc => h hc.symm
        rw [h2, Bool.false_or]
        exact ih
      · rw [if_pos (by simp [hep])]
        rw [List.any_cons, List.any_cons]
        exact congrArg (fun b => ((e.path == q) || b)) ih

theorem foldl_fsAddFile_exists (ps : List FsPath) :
    ∀ (fs : FS) (q : FsPath),
      fsExists (ps.foldl fsAddFile fs) q = (decide (q ∈ ps) || fsExists fs q) := by
  induction ps with
  | nil =>
      intro fs q
      simp
  | cons p ps ih =>
      intro fs q
      rw [List.foldl_cons, ih, fsAddFile_exists]
      by_cases h1 : q = p
      · subst h1
        simp
      · have hpq : (p == q) = false := by
          simp only [beq_eq_false_iff_ne, ne_eq]
          exact fun hc => h1 hc.symm
        have hmem : decide (q ∈ p :: ps) = decide (q ∈ ps) := by
          simp [List.mem_cons, h1]
        rw [hpq, hmem, Bool.false_or]

/-- One step of the cleanup loop, factored out. -/
def cleanupStep (orig : FsPath) (acc : FS) (q : FsPath) : FS :=
  if q ≠ orig ∧ fsExists acc q = true then fsRemove acc q else acc

theorem cleanup_segments_eq_foldl (fs : FS) (files : List FsPath) (orig : FsPath) :
    cleanup_segments fs files orig = files.foldl (cleanupStep orig) fs := rfl

theorem cleanupStep_exists_orig (orig : FsPath) (acc : FS) (q : FsPath) :
    fsExists (cleanupStep orig acc q) orig = fsExists acc orig := by
  rw [cleanupStep]
  by_cases h : q ≠ orig ∧ fsExists acc q = true
  · rw [if_pos h]
    exact fsRemove_exists_other acc q orig fun hc => h.1 hc.symm
  · rw [if_neg h]

theorem cleanupStep_exists_other (orig : FsPath) (acc : FS) (q r : FsPath) (h : r ≠ q) :
    fsExists (cleanupStep orig acc q) r = fsExists acc r := by
  rw [cleanupStep]
  by_cases hq : q ≠ orig ∧ fsExists acc q = true
  · rw [if_pos hq]
    exact fsRemove_exists_other acc q r h
  · rw [if_neg hq]

theorem cleanupStep_false (orig : FsPath) (acc : FS) (q r : FsPath)
    (h : fsExists acc r = false) : fsExists (cleanupStep orig acc q) r = false := by
  by_cases hr : r = q
  · subst hr
    rw [cleanupStep]
    by_cases hq : r ≠ orig ∧ fsExists acc r = true
    · rw [if_pos hq, fsRemove_exists_self]
    · rw [if_neg hq]
      exact h
  · rw [cleanupStep_exists_other orig acc q r hr]
    exact h

theorem cleanup_preserves_orig (orig : FsPath) :
    ∀ (files : List FsPath) (fs : FS),
      fsExists (cleanup_segments fs files orig) orig = fsExists fs orig := by
  intro files
  induction files with
  | nil =>
      intro fs
      rfl
  | cons f files ih =>
      intro fs
      rw [cleanup_segments_eq_foldl, List.foldl_cons,
        ← cleanup_segments_eq_foldl, ih, cleanupStep_exists_orig]

theorem cleanup_false (orig : FsPath) :
    ∀ (files : List FsPath) (fs : FS) (q : FsPath),
      fsExists fs q = false → fsExists (cleanup_segments fs files orig) q = false := by
  intro files
  induction files with
  | nil =>
      intro fs q h
      exact h
  | cons f files ih =>
      intro fs q h
      rw [cleanup_segments_eq_foldl, List.foldl_cons, ← cleanup_segments_eq_foldl]
      exact ih _ q (cleanupStep_false orig fs f q h)

theorem cleanup_deletes (orig : FsPath) :
    ∀ (files : List FsPath) (fs : FS) (p : FsPath),
      p ∈ files → p ≠ orig → fsExists (cleanup_segments fs files orig) p = false := by
  intro files
  induction files with
  | nil =>
      intro fs p hp
      cases hp
  | cons f files ih =>
      intro fs p hp hporig
      rw [cleanup_segments_eq_foldl, List.foldl_cons, ← cleanup_segments_eq_foldl]
      rcases List.mem_cons.mp hp with rfl | hp
      · apply cleanup_false
        rw [cleanupStep]
        by_cases hq : p ≠ orig ∧ fsExists fs p = true
        · rw [if_pos hq, fsRemove_exists_self]
        · rw [if_neg hq]
          exact Bool.eq_false_iff.mpr fun hc => hq ⟨hporig, hc⟩
      · exact ih _ p hp hporig

theorem cleanup_untouched (orig : FsPath) :
    ∀ (files : List FsPath) (fs : FS) (q : FsPath),
      q ∉ files → fsExists (cleanup_segments fs files orig) q = fsExists fs q := by
  intro files
  induction files with
  | nil =>
      intro fs q _
      rfl
  | cons f files ih =>
      intro fs q hq
      rw [cleanup_segments_eq_foldl, List.foldl_cons, ← cleanup_segments_eq_foldl]
      rw [ih _ q (fun h => hq (List.mem_cons_of_mem f h)),
        cleanupStep_exists_other orig fs f q (fun h => hq (h ▸ List.mem_cons_self f files))]

/-! ## The planned batch and its files -/

theorem subFilesOf_mem (audio : FsPath) (t d : ℚ) (ht : 0 < t) :
    ∀ p ∈ subFilesOf audio t d,
      ∃ i : ℤ, 1 ≤ i ∧ p = segFile audio (SegPath.segment i) := by
  intro p hp
  rw [subFilesOf, List.mem_filterMap] at hp
  obtain ⟨s, hs, hm⟩ := hp
  rw [split_audio_file] at hs
  by_cases hle : d ≤ t
  · rw [if_pos hle, List.mem_singleton] at hs
    subst hs
    cases hm
  · rw [if_neg hle] at hs
    have hmem := splitLoop_mem allOk t d ht 0 s hs
    refine ⟨⌊s.start / t⌋ + 1, ?_, ?_⟩
    · have h0 : (0 : ℚ) ≤ s.start / t := div_nonneg hmem.1 (le_of_lt ht)
      have := Int.floor_nonneg.mpr h0
      omega
    · simp only [hmem.2.2.2] at hm
      injection hm with hm
      exact hm.symm

theorem subFilesOf_sub_files (audio : FsPath) (t d : ℚ) :
    ∀ p ∈ subFilesOf audio t d,
      p ∈ (split_audio_file allOk t d).map fun s => segFile audio s.path := by
  intro p hp
  rw [subFilesOf, List.mem_filterMap] at hp
  obtain ⟨s, hs, hm⟩ := hp
  rcases hsp : s.path with _ | i
  · rw [hsp] at hm
    cases hm
  · rw [hsp] at hm
    injection hm with hm
    subst hm
    exact List.mem_map.mpr ⟨s, hs, by rw [hsp]⟩

theorem files_cases (audio : FsPath) (t d : ℚ) :
    ∀ q ∈ (split_audio_file allOk t d).map (fun s => segFile audio s.path),
      q = audio ∨ q ∈ subFilesOf audio t d := by
  intro q hq
  obtain ⟨s, hs, hqe⟩ := List.mem_map.mp hq
  rcases hsp : s.path with _ | i
  · left
    rw [← hqe, hsp]
    rfl
  · right
    rw [subFilesOf, List.mem_filterMap]
    refine ⟨s, hs, ?_⟩
    rw [hsp, ← hqe, hsp]

theorem subFile_ne_transcript (audio : FsPath) (t d : ℚ) (ht : 0 < t)
    (hsup : strLower (pathSuffix audio.name) ∈ audio_extensions) :
    ∀ p ∈ subFilesOf audio t d, p ≠ get_transcript_path audio := by
  intro p hp he
  obtain ⟨i, hi, rfl⟩ := subFilesOf_mem audio t d ht p hp
  have hne := supported_suffix_ne_empty audio.name hsup
  have h1 := (segName_facts audio.name i (by omega) hne).1
  have h2 := transcript_name_suffix audio.name hne
  have hnames : fmt03d i ++ pathSuffix audio.name = pathStem audio.name ++ ".txt" :=
    congrArg FsPath.name he
  have h3 := congrArg pathSuffix hnames
  rw [h1, h2] at h3
  rw [h3] at hsup
  exact absurd hsup (by decide)

/-- Unfolding of `process_audio_file_async` on a file that still needs
transcription. -/
theorem process_unfold (t : ℚ) (outcome : ℚ → Option String) (w : Bool)
    (fs : FS) (audio : FsPath) (d : ℚ)
    (hneed : needs_transcription fs audio = true) :
    process_audio_file_async t outcome w fs audio d =
      (if (split_audio_file allOk t d).isEmpty then
        (false, (subFilesOf audio t d).foldl fsAddFile fs)
      else if (sortResultsByStart ((split_audio_file allOk t d).filterMap fun s =>
          (outcome s.start).map fun txt => TResult.mk txt s.start s.stop)).isEmpty then
        (false, (subFilesOf audio t d).foldl fsAddFile fs)
      else if w then
        (true, cleanup_segments
          (fsAddFile ((subFilesOf audio t d).foldl fsAddFile fs) (get_transcript_path audio))
          ((split_audio_file allOk t d).map fun s => segFile audio s.path) audio)
      else (false, (subFilesOf audio t d).foldl fsAddFile fs)) := by
  rw [process_audio_file_async, if_neg (by rw [hneed]; exact fun h => Bool.noConfusion h)]

/-! ## Claim C5 -/

/-- Claim C5: if every segment of an audio file fails transcription (the
worker batch yields no TranscriptionResult at all), then the merged
transcript is empty, the file is reported failed, no transcript artifact
is written, and the derived transcript path still does not exist, so
`needs_transcription` remains true for the file on a future run. -/
theorem all_fail_no_artifact (t d : ℚ) (w : Bool) (outcome : ℚ → Option String)
    (fs : FS) (audio : FsPath) (ht : 0 < t)
    (hout : outcome = fun _ => none)
    (hsup : strLower (pathSuffix audio.name) ∈ audio_extensions)
    (hneed : needs_transcription fs audio = true) :
    (process_audio_file_async t outcome w fs audio d).1 = false ∧
    fsExists (process_audio_file_async t outcome w fs audio d).2
      (get_transcript_path audio) = false ∧
    needs_transcription (process_audio_file_async t outcome w fs audio d).2 audio = true ∧
    (merge_transcription_results []).text = "" := by
  have hres : (split_audio_file allOk t d).filterMap (fun s =>
      (outcome s.start).map fun txt => TResult.mk txt s.start s.stop) = [] := by
    generalize (split_audio_file allOk t d) = l
    induction l with
    | nil => rfl
    | cons a l ih => simp [List.filterMap_cons, hout, ih]
  have hcollapse : process_audio_file_async t outcome w fs audio d =
      (false, (subFilesOf audio t d).foldl fsAddFile fs) := by
    rw [process_unfold t outcome w fs audio d hneed, hres]
    rw [if_pos (show (sortResultsByStart ([] : List TResult)).isEmpty = true from rfl)]
    rw [ite_self]
  have htpfs : fsExists fs (get_transcript_path audio) = false := by
    rw [needs_transcription] at hneed
    simpa using hneed
  have htp1 : fsExists ((subFilesOf audio t d).foldl fsAddFile fs)
      (get_transcript_path audio) = false := by
    rw [foldl_fsAddFile_exists, htpfs,
      decide_eq_false fun hm =>
        subFile_ne_transcript audio t d ht hsup _ hm rfl]
    rfl
  rw [hcollapse]
  exact ⟨rfl, htp1, by rw [needs_transcription, htp1]; rfl, rfl⟩

/-- Witness for C5: a 10-minute file whose sole segment fails. -/
theorem all_fail_no_artifact_witness :
    (0 : ℚ) < 1800 ∧
    ((fun _ : ℚ => (none : Option String)) = fun _ => none) ∧
    strLower (pathSuffix (FsPath.mk "/a" "ep.mp3").name) ∈ audio_extensions ∧
    needs_transcription [⟨⟨"/a", "ep.mp3"⟩, true⟩] ⟨"/a", "ep.mp3"⟩ = true ∧
    (process_audio_file_async 1800 (fun _ => none) true
      [⟨⟨"/a", "ep.mp3"⟩, true⟩] ⟨"/a", "ep.mp3"⟩ 600).1 = false ∧
    needs_transcription (process_audio_file_async 1800 (fun _ => none) true
      [⟨⟨"/a", "ep.mp3"⟩, true⟩] ⟨"/a", "ep.mp3"⟩ 600).2 ⟨"/a", "ep.mp3"⟩ = true := by
  have h := all_fail_no_artifact 1800 600 true (fun _ => none)
    [⟨⟨"/a", "ep.mp3"⟩, true⟩] ⟨"/a", "ep.mp3"⟩ (by norm_num) rfl (by decide) (by decide)
  exact ⟨by norm_num, rfl, by decide, by decide, h.1, h.2.2.1⟩

/-! ## Claim C8 -/

/-- Claim C8: for a processed audio file (whose generated sub-file paths
do not collide with the original path): if the transcript write succeeds,
every extractor-produced temporary sub-file is deleted, the original
audio file is never deleted, and the artifact exists; if the transcript
write fails, the run reports failure, no temporary sub-file is deleted
(they all remain), and no transcript artifact exists for that file. -/
theorem write_cleanup_frame (t d : ℚ) (w : Bool) (outcome : ℚ → Option String)
    (fs : FS) (audio : FsPath) (ht : 0 < t)
    (hsup : strLower (pathSuffix audio.name) ∈ audio_extensions)
    (hneed : needs_transcription fs audio = true)
    (horig : fsExists fs audio = true)
    (hnocol : audio ∉ subFilesOf audio t d)
    (hres : ((split_audio_file allOk t d).filterMap fun s =>
      (outcome s.start).map fun txt => TResult.mk txt s.start s.stop) ≠ []) :
    (w = true →
      (process_audio_file_async t outcome w fs audio d).1 = true ∧
      (∀ p ∈ subFilesOf audio t d,
        fsExists (process_audio_file_async t outcome w fs audio d).2 p = false) ∧
      fsExists (process_audio_file_async t outcome w fs audio d).2 audio = true ∧
      fsExists (process_audio_file_async t outcome w fs audio d).2
        (get_transcript_path audio) = true) ∧
    (w = false →
      (process_audio_file_async t outcome w fs audio d).1 = false ∧
      (∀ p ∈ subFilesOf audio t d,
        fsExists (process_audio_file_async t outcome w fs audio d).2 p = true) ∧
      fsExists (process_audio_file_async t outcome w fs audio d).2
        (get_transcript_path audio) = false) := by
  have htpfs : fsExists fs (get_transcript_path audio) = false := by
    rw [needs_transcription] at hneed
    simpa using hneed
  have htp_ne_audio : get_transcript_path audio ≠ audio := by
    intro he
    rw [he, horig] at htpfs
    exact Bool.noConfusion htpfs
  have hsegs : (split_audio_file allOk t d).isEmpty = false := by
    cases hsp : split_audio_file allOk t d with
    | nil =>
        rw [hsp] at hres
        exact absurd rfl hres
    | cons a l => rfl
  have hrs : (sortResultsByStart ((split_audio_file allOk t d).filterMap fun s =>
      (outcome s.start).map fun txt => TResult.mk txt s.start s.stop)).isEmpty
        = false := by
    cases hsort : sortResultsByStart ((split_audio_file allOk t d).filterMap fun s =>
      (outcome s.start).map fun txt => TResult.mk txt s.start s.stop) with
    | nil =>
        have hperm := List.perm_insertionSort resultLE
          ((split_audio_file allOk t d).filterMap fun s =>
            (outcome s.start).map fun txt => TResult.mk txt s.start s.stop)
        rw [show sortResultsByStart ((split_audio_file allOk t d).filterMap fun s =>
          (outcome s.start).map fun txt => TResult.mk txt s.start s.stop) =
            List.insertionSort resultLE ((split_audio_file allOk t d).filterMap fun s =>
              (outcome s.start).map fun txt => TResult.mk txt s.start s.stop)
          from rfl] at hsort
        rw [hsort] at hperm
        exact absurd hperm.symm.eq_nil hres
    | cons a l => rfl
  have hproc := process_unfold t outcome w fs audio d hneed
  rw [if_neg (by rw [hsegs]; exact fun h => Bool.noConfusion h),
    if_neg (by rw [hrs]; exact fun h => Bool.noConfusion h)] at hproc
  have htp_not_subs : get_transcript_path audio ∉ subFilesOf audio t d :=
    fun hm => subFile_ne_transcript audio t d ht hsup _ hm rfl
  have htp_not_files : get_transcript_path audio ∉
      (split_audio_file allOk t d).map fun s => segFile audio s.path := by
    intro hm
    rcases files_cases audio t d _ hm with h | h
    · exact htp_ne_audio h
    · exact htp_not_subs h
  constructor
  · intro hw
    subst hw
    rw [if_pos rfl] at hproc
    rw [hproc]
    refine ⟨rfl, ?_, ?_, ?_⟩
    · intro p hp
      refine cleanup_deletes audio _ _ p (subFilesOf_sub_files audio t d p hp) ?_
      intro he
      rw [he] at hp
      exact hnocol hp
    · rw [cleanup_preserves_orig, fsAddFile_exists, foldl_fsAddFile_exists, horig]
      simp
    · rw [cleanup_untouched audio _ _ _ htp_not_files, fsAddFile_exists]
      simp
  · intro hw
    subst hw
    rw [if_neg (fun h => Bool.noConfusion h)] at hproc
    rw [hproc]
    refine ⟨rfl, ?_, ?_⟩
    · intro p hp
      rw [foldl_fsAddFile_exists]
      simp [hp]
    · rw [foldl_fsAddFile_exists, htpfs, decide_eq_false htp_not_subs]
      rfl

/-- Witness for C8: a single-segment file that transcribes successfully
and whose transcript write succeeds. -/
theorem write_cleanup_frame_witness :
    (0 : ℚ) < 1800 ∧
    strLower (pathSuffix (FsPath.mk "/a" "ep.mp3").name) ∈ audio_extensions ∧
    needs_transcription [⟨⟨"/a", "ep.mp3"⟩, true⟩] ⟨"/a", "ep.mp3"⟩ = true ∧
    fsExists [⟨⟨"/a", "ep.mp3"⟩, true⟩] ⟨"/a", "ep.mp3"⟩ = true ∧
    (⟨"/a", "ep.mp3"⟩ : FsPath) ∉ subFilesOf ⟨"/a", "ep.mp3"⟩ 1800 600 ∧
    ((split_audio_file allOk 1800 600).filterMap fun s =>
      ((fun _ : ℚ => some "hi") s.start).map fun txt => TResult.mk txt s.start s.stop) ≠ [] ∧
    (process_audio_file_async 1800 (fun _ => some "hi") true
      [⟨⟨"/a", "ep.mp3"⟩, true⟩] ⟨"/a", "ep.mp3"⟩ 600).1 = true ∧
    fsExists (process_audio_file_async 1800 (fun _ => some "hi") true
      [⟨⟨"/a", "ep.mp3"⟩, true⟩] ⟨"/a", "ep.mp3"⟩ 600).2 ⟨"/a", "ep.mp3"⟩ = true ∧
    fsExists (process_audio_file_async 1800 (fun _ => some "hi") true
      [⟨⟨"/a", "ep.mp3"⟩, true⟩] ⟨"/a", "ep.mp3"⟩ 600).2
      (get_transcript_path ⟨"/a", "ep.mp3"⟩) = true := by
  have h := (write_cleanup_frame 1800 600 true (fun _ => some "hi")
    [⟨⟨"/a", "ep.mp3"⟩, true⟩] ⟨"/a", "ep.mp3"⟩ (by norm_num) (by decide)
    (by decide) (by decide) (by decide) (by decide)).1 rfl
  exact ⟨by norm_num, by decide, by decide, by decide, by decide, by decide,
    h.1, h.2.2.1, h.2.2.2⟩

/-! ## Claim C9 -/

theorem sched_invariant (n : Nat) :
    ∀ st, SchedReaches (batchInit n) st → st.2 = [] ∧ ∀ c ∈ st.1, c = 1 := by
  intro st h
  induction h with
  | refl =>
      refine ⟨rfl, ?_⟩
      intro c hc
      exact List.eq_of_mem_replicate hc
  | tail hab hbc ih =>
      obtain ⟨k, hstep⟩ := hbc
      obtain ⟨hsusp, hpend⟩ := ih
      cases hstep with
      | start pend susp i =>
          have hone : pend.get i = 1 := hpend _ (pend.get_mem i.1 i.2)
          refine ⟨?_, ?_⟩
          · show (if pend.get i ≤ 1 then susp else (pend.get i - 1) :: susp) = []
            rw [if_pos (by rw [hone])]
            exact hsusp
          · intro c hc
            exact hpend c ((List.eraseIdx_sublist pend i).subset hc)
      | resume pend susp i =>
          have hs : susp = [] := hsusp
          have hl : susp.length = 0 := by rw [hs]; rfl
          exact absurd i.isLt (by omega)

/-- Claim C9 (the code at the failing input): the source sets
`max_workers = 5` with the comment that it is the maximum number of
parallel workers, but the attribute is never read, and
`transcribe_segment_async` contains no `await`, so each segment coroutine
is a single atomic chunk: along every trace of the cooperative event loop
over a segment batch, at most ONE transcription call is in flight while
any step runs — the claimed pool of 5 bounds nothing. -/
theorem inflight_bound (n : Nat) (st st' : List Nat × List Nat) (k : Nat)
    (hreach : SchedReaches (batchInit n) st) (hstep : SchedStep st k st') :
    k ≤ 1 ∧ max_workers = 5 := by
  have hinv := sched_invariant n st hreach
  cases hstep with
  | start pend susp i =>
      refine ⟨?_, rfl⟩
      have hs : susp = [] := hinv.1
      rw [hs]
      exact le_refl 1
  | resume pend susp i =>
      have hs : susp = [] := hinv.1
      have hl : susp.length = 0 := by rw [hs]; rfl
      exact absurd i.isLt (by omega)

/-- Witness for the C9 scheduler bound at a six-segment batch. -/
theorem inflight_bound_witness :
    SchedReaches (batchInit 6) (batchInit 6) ∧
    SchedStep (batchInit 6) 1 ((List.replicate 6 1).eraseIdx 0, []) ∧
    (1 ≤ 1 ∧ max_workers = 5) := by
  have hstep : SchedStep (batchInit 6) 1 ((List.replicate 6 1).eraseIdx 0, []) :=
    SchedStep.start (List.replicate 6 1) [] ⟨0, by decide⟩
  exact ⟨Relation.ReflTransGen.refl, hstep,
    inflight_bound 6 (batchInit 6) _ 1 Relation.ReflTransGen.refl hstep⟩

end GeminiTranscribe
